import Mathlib

/-!
Verification of the package-amalgamation engine (pymalgamate).

This file shallowly embeds the engine: a LibCST-based tool that merges a
Python package into a single file.  The embedding models

* the small fragment of the concrete syntax tree the engine inspects
  (imports, from-imports, assignments, function/class definitions, other
  statements, with nested statement bodies),
* the transformer that strips intra-package imports
  (IntraPackageImportRemover.leave_Import / leave_ImportFrom;
  LibCST transformers fire on matching nodes at every nesting depth, and
  LibCST drops a simple statement line whose body became empty),
* the visitor collecting intra-package dependencies (DepCollector, which
  likewise traverses the whole tree),
* the Kahn-style worklist topological sort (topo_sort), and
* the gathering / hoisting / deduplication loop and the output assembly
  of the driver (main).

Strings are compared character-by-character (code points), matching
Python string semantics; the helper functions below mirror
str.startswith, slicing, and lexicographic comparison on the character
list of a String so that everything reduces computably.
-/

/-- Character-list prefix test, mirroring Python str.startswith. -/
def startsWithS (s pre : String) : Bool :=
  pre.data.isPrefixOf s.data

/-- Drop the first n characters, mirroring Python slicing s[n:]. -/
def strDropN (s : String) (n : Nat) : String :=
  String.mk (s.data.drop n)

/-- Lexicographic comparison on code points, mirroring Python str order. -/
def lexLe : List Char → List Char → Bool
  | [], _ => true
  | _ :: _, [] => false
  | a :: as, b :: bs =>
    if a.toNat < b.toNat then true
    else if b.toNat < a.toNat then false
    else lexLe as bs

/-- The order used for the sorted external-import section. -/
def strLe (a b : String) : Prop := lexLe a.data b.data = true

instance : DecidableRel strLe :=
  fun a b => inferInstanceAs (Decidable (lexLe a.data b.data = true))

/-- A dotted-name expression: cst.Name or a cst.Attribute chain. -/
inductive ModExpr where
  | name (value : String)
  | attr (value : ModExpr) (attrName : String)
deriving DecidableEq, Repr

/-- An assignment target: a bare cst.Name or anything else. -/
inductive Target where
  | name (value : String)
  | other (text : String)
deriving DecidableEq, Repr

/-- A small statement living inside a SimpleStatementLine.
names in imp carry an optional asname; impFrom carries the number of
relativity dots, the optional source module and the imported names. -/
inductive SmallStmt where
  | imp (names : List (ModExpr × Option String))
  | impFrom (relative : Nat) (module : Option ModExpr)
      (names : List (String × Option String))
  | assign (targets : List Target) (value : String)
  | annAssign (target : Target) (rest : String)
  | exprOther (text : String)
deriving DecidableEq, Repr

/-- A statement of a module body.  simple is a SimpleStatementLine;
funcDef / classDef / compoundOther carry their nested statement bodies
(the engine's visitors recurse into them). -/
inductive Stmt where
  | simple (body : List SmallStmt)
  | funcDef (name : String) (body : List Stmt) (rest : String)
  | classDef (name : String) (body : List Stmt) (rest : String)
  | compoundOther (body : List Stmt) (text : String)

/-- IntraPackageImportRemover._get_module_name: the dotted name of a
Name/Attribute chain (for this grammar the chain always ends in a Name). -/
def get_module_name : ModExpr → String
  | ModExpr.name v => v
  | ModExpr.attr value attrName => get_module_name value ++ "." ++ attrName

/-- Intra-package test used by leave_Import:
full == pkg or full.startswith(pkg + "."). -/
def intraName (pkg full : String) : Bool :=
  full == pkg || startsWithS full (pkg ++ ".")

/-- IntraPackageImportRemover.leave_Import: filter the aliases of a
bare import name-by-name; remove the statement when nothing is left. -/
def leave_Import (pkg : String) (names : List (ModExpr × Option String)) :
    Option SmallStmt :=
  let filtered := names.filter (fun a => !(intraName pkg (get_module_name a.1)))
  if filtered.isEmpty then none else some (SmallStmt.imp filtered)

/-- IntraPackageImportRemover.leave_ImportFrom: drop the whole statement
when module_name.startswith(pkg) (note: no trailing dot in the source)
or the import is relative; otherwise keep it verbatim. -/
def leave_ImportFrom (pkg : String) (relative : Nat) (module : Option ModExpr)
    (names : List (String × Option String)) : Option SmallStmt :=
  let module_name := match module with
    | some m => get_module_name m
    | none => ""
  if startsWithS module_name pkg || relative != 0 then none
  else some (SmallStmt.impFrom relative module names)

/-- Dispatch of the remover over one small statement. -/
def removeSmall (pkg : String) : SmallStmt → Option SmallStmt
  | SmallStmt.imp names => leave_Import pkg names
  | SmallStmt.impFrom r m ns => leave_ImportFrom pkg r m ns
  | s => some s

mutual
/-- The remover applied to a statement; transformers visit nested bodies. -/
def removeStmt (pkg : String) : Stmt → Stmt
  | Stmt.simple ss => Stmt.simple (ss.filterMap (removeSmall pkg))
  | Stmt.funcDef n b r => Stmt.funcDef n (removeStmts pkg b) r
  | Stmt.classDef n b r => Stmt.classDef n (removeStmts pkg b) r
  | Stmt.compoundOther b t => Stmt.compoundOther (removeStmts pkg b) t

/-- The remover over a statement sequence; LibCST drops a simple
statement line whose body became empty after child removal. -/
def removeStmts (pkg : String) : List Stmt → List Stmt
  | [] => []
  | s :: rest =>
    match removeStmt pkg s with
    | Stmt.simple [] => removeStmts pkg rest
    | s2 => s2 :: removeStmts pkg rest
end

/-- DepCollector.visit_Import: record names starting with pkg + ".". -/
def visit_Import (pkg : String) (names : List (ModExpr × Option String)) :
    List String :=
  names.filterMap (fun a =>
    let modname := get_module_name a.1
    if startsWithS modname (pkg ++ ".") then
      some (strDropN modname (pkg.length + 1))
    else none)

/-- DepCollector.visit_ImportFrom: record the source module when it
starts with pkg + "." (relative imports record nothing). -/
def visit_ImportFrom (pkg : String) (module : Option ModExpr) : List String :=
  match module with
  | some m =>
    let modname := get_module_name m
    if startsWithS modname (pkg ++ ".") then
      [strDropN modname (pkg.length + 1)]
    else []
  | none => []

/-- Dependency collection over one small statement. -/
def collectSmall (pkg : String) : SmallStmt → List String
  | SmallStmt.imp names => visit_Import pkg names
  | SmallStmt.impFrom _ m _ => visit_ImportFrom pkg m
  | _ => []

mutual
/-- Dependency collection over a statement; visitors recurse everywhere. -/
def collectStmt (pkg : String) : Stmt → List String
  | Stmt.simple ss => ss.flatMap (collectSmall pkg)
  | Stmt.funcDef _ b _ => collectStmts pkg b
  | Stmt.classDef _ b _ => collectStmts pkg b
  | Stmt.compoundOther b _ => collectStmts pkg b

/-- Dependency collection over a statement sequence. -/
def collectStmts (pkg : String) : List Stmt → List String
  | [] => []
  | s :: rest => collectStmt pkg s ++ collectStmts pkg rest
end

/-- One worklist round of topo_sort: remove u from every dependency set,
queueing (in registration order) each module whose set just became empty. -/
def topoRemove (u : String) :
    List (String × List String) → List (String × List String) × List String
  | [] => ([], [])
  | p :: rest =>
    let r := topoRemove u rest
    if u ∈ p.2 then
      let ds := p.2.filter (fun d => decide (d ≠ u))
      ((p.1, ds) :: r.1, (if ds.isEmpty then [p.1] else []) ++ r.2)
    else (p :: r.1, r.2)

/-- The while-loop of topo_sort, with fuel bounding the iteration count
(one module is emitted per round, so deps.length rounds suffice). -/
def topoLoop : Nat → List (String × List String) → List String → List String →
    List String
  | 0, _, order, _ => order
  | Nat.succ fuel, dc, order, ready =>
    match ready with
    | [] => order
    | u :: rest =>
      let r := topoRemove u dc
      topoLoop fuel r.1 (order ++ [u]) (rest ++ r.2)

/-- topo_sort: Kahn's algorithm with a FIFO worklist seeded in
registration order; raises RuntimeError("Cycle detected in dependency
graph") when not every module was emitted. -/
def topo_sort (deps : List (String × List String)) :
    Except String (List String) :=
  let ready := (deps.filter (fun p => p.2.isEmpty)).map Prod.fst
  let order := topoLoop deps.length deps [] ready
  if order.length = deps.length then Except.ok order
  else Except.error "Cycle detected in dependency graph"

/-- The registered module names, in registration (discovery) order. -/
def moduleNames (modules : List (String × List Stmt)) : List String :=
  modules.map Prod.fst

/-- Dependency-graph construction in main: per module, the collected
dependencies restricted to names present in the module registry
(unknown names are silently dropped by the membership test). -/
def buildDeps (pkg : String) (modules : List (String × List Stmt)) :
    List (String × List String) :=
  modules.map (fun p =>
    (p.1, ((collectStmts pkg p.2).filter
      (fun d => decide (d ∈ moduleNames modules))).dedup))

/-- module_map lookup (total: emission names come from the registry). -/
def modLookup (modules : List (String × List Stmt)) (n : String) :
    List Stmt :=
  match modules.find? (fun p => p.1 == n) with
  | some p => p.2
  | none => []

/-- Rendered source text of an import alias (code_for_node). -/
def renderAlias (a : ModExpr × Option String) : String :=
  get_module_name a.1 ++ (match a.2 with
    | some s => " as " ++ s
    | none => "")

/-- Rendered source text of a small statement (used for imports only). -/
def renderSmall : SmallStmt → String
  | SmallStmt.imp names =>
    String.append "import " (String.intercalate ", " (names.map renderAlias))
  | SmallStmt.impFrom r m names =>
    "from " ++ String.mk (List.replicate r '.') ++
      (match m with
        | some e => get_module_name e
        | none => "") ++
      " import " ++
      String.intercalate ", " (names.map (fun p => p.1 ++ (match p.2 with
        | some s => " as " ++ s
        | none => "")))
  | SmallStmt.assign _ t => t
  | SmallStmt.annAssign _ t => t
  | SmallStmt.exprOther t => t

/-- The rendered text of a one-line top-level import, when stmt is one. -/
def importText : Stmt → Option String
  | Stmt.simple [SmallStmt.imp ns] => some (renderSmall (SmallStmt.imp ns))
  | Stmt.simple [SmallStmt.impFrom r m ns] =>
    some (renderSmall (SmallStmt.impFrom r m ns))
  | _ => none

/-- Whether the gathering loop treats stmt as a hoistable import line. -/
def isImportLine (s : Stmt) : Bool := (importText s).isSome

/-- def_name detection of the gathering loop: a function or class name,
or the first target of a one-line plain assignment when it is a Name. -/
def gName : Stmt → Option String
  | Stmt.funcDef n _ _ => some n
  | Stmt.classDef n _ _ => some n
  | Stmt.simple [SmallStmt.assign ts _] =>
    match ts.head? with
    | some (Target.name s) => some s
    | _ => none
  | _ => none

/-- Whether stmt is hoisted into the globals section: a one-line plain
or annotated assignment. -/
def isGlobalLine : Stmt → Bool
  | Stmt.simple [SmallStmt.assign _ _] => true
  | Stmt.simple [SmallStmt.annAssign _ _] => true
  | _ => false

/-- Whether stmt is a named function or class definition. -/
def isNamedDef : Stmt → Bool
  | Stmt.funcDef _ _ _ => true
  | Stmt.classDef _ _ _ => true
  | _ => false

/-- Accumulator state of the gathering loop in main: external-import
texts, hoisted globals, remaining body statements, and seen_defs. -/
structure GState where
  ext : List String
  globals : List Stmt
  body : List Stmt
  seen : List String

def initState : GState := GState.mk [] [] [] []

/-- One iteration of the gathering loop of main: hoist import lines,
drop statements whose def_name was already seen, hoist assignment
lines as globals, keep everything else in the body. -/
def gatherStmt (st : GState) (stmt : Stmt) : GState :=
  match importText stmt with
  | some txt => { st with ext := st.ext ++ [txt] }
  | none =>
    match gName stmt with
    | some n =>
      if n ∈ st.seen then st
      else
        let st2 := { st with seen := st.seen ++ [n] }
        if isGlobalLine stmt then { st2 with globals := st2.globals ++ [stmt] }
        else { st2 with body := st2.body ++ [stmt] }
    | none =>
      if isGlobalLine stmt then { st with globals := st.globals ++ [stmt] }
      else { st with body := st.body ++ [stmt] }

/-- The gathering loop over a statement stream. -/
def gatherList (st : GState) : List Stmt → GState
  | [] => st
  | s :: rest => gatherList (gatherStmt st s) rest

/-- The concatenated statement stream main iterates over: the rewritten
top-level bodies of the modules, in topologically sorted order. -/
def emissionStream (pkg : String) (modules : List (String × List Stmt)) :
    List Stmt :=
  match topo_sort (buildDeps pkg modules) with
  | Except.ok ns => (ns.map (fun n => removeStmts pkg (modLookup modules n))).flatten
  | Except.error _ => []

/-- The two header comment lines written by main. -/
def headerLines (pkg : String) : List String :=
  ["# Auto-amalgamated by amalgamate_package.py",
   "# Contains all code from package: " ++ pkg]

/-- The structured output file: header, sorted deduplicated external
imports, hoisted globals in first-seen order, remaining statements. -/
structure Output where
  header : List String
  ext_imports : List String
  globals : List Stmt
  body : List Stmt

/-- sorted(external_imports): the set of rendered texts in order. -/
def sortedExternal (ext : List String) : List String :=
  List.insertionSort strLe ext.dedup

/-- The output main writes on success. -/
def outputOf (pkg : String) (modules : List (String × List Stmt)) : Output :=
  let st := gatherList initState (emissionStream pkg modules)
  Output.mk (headerLines pkg) (sortedExternal st.ext) st.globals st.body

/-- The source's main after module discovery: build the dependency
graph, topologically sort it (propagating the cycle error), then gather
and emit.  An error means the process dies before the output file opens. -/
def mainRun (pkg : String) (modules : List (String × List Stmt)) :
    Except String Output :=
  match topo_sort (buildDeps pkg modules) with
  | Except.error e => Except.error e
  | Except.ok _ => Except.ok (outputOf pkg modules)

/-! Concrete module trees used to evaluate the engine at specific
inputs.  fromImportLine m x is the line from m import x; assignLine n v
is the line n = v. -/

def fromImportLine (m : ModExpr) (x : String) : Stmt :=
  Stmt.simple [SmallStmt.impFrom 0 (some m) [(x, none)]]

def assignLine (n v : String) : Stmt :=
  Stmt.simple [SmallStmt.assign [Target.name n] v]

def importOsLine : Stmt :=
  Stmt.simple [SmallStmt.imp [(ModExpr.name "os", none)]]

def importSysLine : Stmt :=
  Stmt.simple [SmallStmt.imp [(ModExpr.name "sys", none)]]

/-- Registry for the dangling-reference scenario: module a contains
from pkg.missing import x, and no module named missing exists. -/
def c1Mods : List (String × List Stmt) :=
  [("a", [fromImportLine (ModExpr.attr (ModExpr.name "pkg") "missing") "x"])]

/-- Two modules each with a top-level plain assignment to the name x. -/
def c2Mods : List (String × List Stmt) :=
  [("m1", [assignLine "x" "1"]), ("m2", [assignLine "x" "2"])]

/-- Module a holds a function whose body contains a nested
from pkg.b import y import; module b exists. -/
def c3aDef : Stmt :=
  Stmt.funcDef "f"
    [fromImportLine (ModExpr.attr (ModExpr.name "pkg") "b") "y",
     Stmt.simple [SmallStmt.exprOther "return y"]] "()"

def c3Mods : List (String × List Stmt) :=
  [("b", [assignLine "y" "0"]), ("a", [c3aDef])]

/-- Module a contains from pkgextra import x; pkgextra is a distinct
module whose name merely begins with the package name pkg. -/
def c4Mods : List (String × List Stmt) :=
  [("a", [fromImportLine (ModExpr.name "pkgextra") "x"])]

/-- Two-module cycle: x imports pkg.y and y imports pkg.x. -/
def c5ModsXY : List (String × List Stmt) :=
  [("x", [fromImportLine (ModExpr.attr (ModExpr.name "pkg") "y") "g"]),
   ("y", [fromImportLine (ModExpr.attr (ModExpr.name "pkg") "x") "f"])]

/-- A different two-module cycle, between modules named a and b. -/
def c5ModsAB : List (String × List Stmt) :=
  [("a", [fromImportLine (ModExpr.attr (ModExpr.name "pkg") "b") "g"]),
   ("b", [fromImportLine (ModExpr.attr (ModExpr.name "pkg") "a") "f"])]

/-- An acyclic graph with a tie (a and c both become ready after b). -/
def c6Graph : List (String × List String) :=
  [("a", ["b"]), ("b", []), ("c", ["b"])]

/-- An assignment to x in the earliest module, then two modules that
both define a function named x. -/
def c7Mods : List (String × List Stmt) :=
  [("a", [assignLine "x" "1"]),
   ("b", [Stmt.funcDef "x" [] "(): pass"]),
   ("c", [Stmt.funcDef "x" [] "(): return 1"])]

/-- Two modules defining a function named x, no assignment involved. -/
def c7wMods : List (String × List Stmt) :=
  [("b", [Stmt.funcDef "x" [] "(): pass"]),
   ("c", [Stmt.funcDef "x" [] "(): return 1"])]

/-- Two modules that both contain the identical line import os. -/
def c8Mods : List (String × List Stmt) :=
  [("m1", [importOsLine, assignLine "a" "1"]),
   ("m2", [importSysLine, importOsLine])]

/-- A plain assignment binding x followed by a function definition of x. -/
def c10Stmts : List Stmt :=
  [assignLine "x" "1", Stmt.funcDef "x" [] "(): pass"]

/-! Derived notions used to state and prove properties of the engine. -/

/-- The node names of a dependency graph, in registration order. -/
def keysOf (deps : List (String × List String)) : List String :=
  deps.map Prod.fst

/-- T is a topological order of deps: a permutation of the node names
in which every dependency of an entry appears strictly before it. -/
def IsTopoOrder (deps : List (String × List String)) (T : List String) :
    Prop :=
  T.Perm (keysOf deps) ∧ ∀ p ∈ deps, ∀ d ∈ p.2, T.indexOf d < T.indexOf p.1

/-- A graph is acyclic when it admits a topological order. -/
def Acyclic (deps : List (String × List String)) : Prop :=
  ∃ T, IsTopoOrder deps T

/-- The dependencies of ds still missing from the emitted order o. -/
def minusAll (ds o : List String) : List String :=
  ds.filter (fun d => decide (d ∉ o))

/-- Every dependency set reduced by the emitted order o. -/
def removeAllDeps (deps : List (String × List String)) (o : List String) :
    List (String × List String) :=
  deps.map (fun p => (p.1, minusAll p.2 o))

/-- The modules whose dependency set transitions to empty when u is
emitted after the order o, in registration order. -/
def newlyReady (deps : List (String × List String)) (o : List String)
    (u : String) : List String :=
  (deps.filter (fun p =>
    decide (u ∈ minusAll p.2 o) && (minusAll p.2 (o ++ [u])).isEmpty)).map
    Prod.fst

/-- Loop invariant of topo_sort relating the mutable dependency copy,
the emitted order and the FIFO worklist to the original graph D. -/
structure TopoInv (D dc : List (String × List String))
    (order ready : List String) : Prop where
  hdc : dc = removeAllDeps D order
  hsub : ∀ x ∈ order, x ∈ keysOf D
  hrsub : ∀ x ∈ ready, x ∈ keysOf D
  hnd : (order ++ ready).Nodup
  hchar : ∀ p ∈ D, ((∀ d ∈ p.2, d ∈ order) ↔ (p.1 ∈ order ∨ p.1 ∈ ready))
  hord : ∀ p ∈ D, ∀ i, (hi : i < order.length) →
    order.get ⟨i, hi⟩ = p.1 → ∀ d ∈ p.2, d ∈ order.take i

/-- The statements the gathering loop keeps (neither hoisted import
lines nor statements dropped by the seen_defs deduplication), with the
running symbol table threaded through. -/
def keepFrom (seen : List String) : List Stmt → List Stmt
  | [] => []
  | s :: rest =>
    match importText s with
    | some _ => keepFrom seen rest
    | none =>
      match gName s with
      | some n =>
        if n ∈ seen then keepFrom seen rest
        else s :: keepFrom (seen ++ [n]) rest
      | none => s :: keepFrom seen rest

/-- The evolution of the seen_defs symbol table over a stream. -/
def addNames (seen : List String) : List Stmt → List String
  | [] => seen
  | s :: rest =>
    match importText s with
    | some _ => addNames seen rest
    | none =>
      match gName s with
      | some n => addNames (if n ∈ seen then seen else seen ++ [n]) rest
      | none => addNames seen rest

/-- Whether a small statement is an intra-package import in the sense
of the remover (the conditions of leave_Import and leave_ImportFrom). -/
def hasIntraSmall (pkg : String) : SmallStmt → Bool
  | SmallStmt.imp names => names.any (fun a => intraName pkg (get_module_name a.1))
  | SmallStmt.impFrom r m _ =>
    let module_name := match m with
      | some e => get_module_name e
      | none => ""
    startsWithS module_name pkg || r != 0
  | _ => false

mutual
/-- Whether any intra-package import occurs anywhere in a statement. -/
def hasIntraStmt (pkg : String) : Stmt → Bool
  | Stmt.simple ss => ss.any (hasIntraSmall pkg)
  | Stmt.funcDef _ b _ => hasIntraStmts pkg b
  | Stmt.classDef _ b _ => hasIntraStmts pkg b
  | Stmt.compoundOther b _ => hasIntraStmts pkg b

/-- Whether any intra-package import occurs in a statement sequence. -/
def hasIntraStmts (pkg : String) : List Stmt → Bool
  | [] => false
  | s :: rest => hasIntraStmt pkg s || hasIntraStmts pkg rest
end

/-! Lemmas about the gathering loop. -/

theorem importText_gName_none {s : Stmt} {t : String}
    (h : importText s = some t) : gName s = none := by
  cases s with
  | simple ss =>
    match ss with
    | [] => rfl
    | [SmallStmt.imp ns] => rfl
    | [SmallStmt.impFrom r m ns] => rfl
    | [SmallStmt.assign ts v] => simp [importText] at h
    | [SmallStmt.annAssign tg r] => rfl
    | [SmallStmt.exprOther t] => rfl
    | a :: b :: rest => cases a <;> rfl
  | funcDef n b r => simp [importText] at h
  | classDef n b r => simp [importText] at h
  | compoundOther b t2 => simp [importText] at h

theorem gatherList_spec (stmts : List Stmt) : ∀ st : GState,
    (gatherList st stmts).ext = st.ext ++ stmts.filterMap importText
    ∧ (gatherList st stmts).globals
        = st.globals ++ (keepFrom st.seen stmts).filter isGlobalLine
    ∧ (gatherList st stmts).body
        = st.body ++ (keepFrom st.seen stmts).filter (fun s => !isGlobalLine s)
    ∧ (gatherList st stmts).seen = addNames st.seen stmts := by
  induction stmts with
  | nil =>
    intro st
    simp [gatherList, keepFrom, addNames]
  | cons s rest ih =>
    intro st
    show (gatherList (gatherStmt st s) rest).ext = _
      ∧ (gatherList (gatherStmt st s) rest).globals = _
      ∧ (gatherList (gatherStmt st s) rest).body = _
      ∧ (gatherList (gatherStmt st s) rest).seen = _
    cases himp : importText s with
    | some txt =>
      have hg : gatherStmt st s = { st with ext := st.ext ++ [txt] } := by
        simp [gatherStmt, himp]
      obtain ⟨ih1, ih2, ih3, ih4⟩ := ih { st with ext := st.ext ++ [txt] }
      rw [hg]
      refine ⟨?_, ?_, ?_, ?_⟩
      · simp [ih1, himp]
      · simpa [keepFrom, himp] using ih2
      · simpa [keepFrom, himp] using ih3
      · simpa [addNames, himp] using ih4
    | none =>
      cases hn : gName s with
      | some n =>
        by_cases hmem : n ∈ st.seen
        · have hg : gatherStmt st s = st := by
            simp [gatherStmt, himp, hn, hmem]
          obtain ⟨ih1, ih2, ih3, ih4⟩ := ih st
          rw [hg]
          refine ⟨?_, ?_, ?_, ?_⟩
          · simp [ih1, himp]
          · simpa [keepFrom, himp, hn, hmem] using ih2
          · simpa [keepFrom, himp, hn, hmem] using ih3
          · simpa [addNames, himp, hn, hmem] using ih4
        · by_cases hgl : isGlobalLine s
          · have hg : gatherStmt st s =
                GState.mk st.ext (st.globals ++ [s]) st.body (st.seen ++ [n]) := by
              simp [gatherStmt, himp, hn, hmem, hgl]
            obtain ⟨ih1, ih2, ih3, ih4⟩ :=
              ih (GState.mk st.ext (st.globals ++ [s]) st.body (st.seen ++ [n]))
            rw [hg]
            refine ⟨?_, ?_, ?_, ?_⟩
            · simp [ih1, himp]
            · simp [ih2, keepFrom, himp, hn, hmem, hgl]
            · simp [ih3, keepFrom, himp, hn, hmem, hgl]
            · simpa [addNames, himp, hn, hmem] using ih4
          · have hg : gatherStmt st s =
                GState.mk st.ext st.globals (st.body ++ [s]) (st.seen ++ [n]) := by
              simp [gatherStmt, himp, hn, hmem, hgl]
            obtain ⟨ih1, ih2, ih3, ih4⟩ :=
              ih (GState.mk st.ext st.globals (st.body ++ [s]) (st.seen ++ [n]))
            rw [hg]
            refine ⟨?_, ?_, ?_, ?_⟩
            · simp [ih1, himp]
            · simp [ih2, keepFrom, himp, hn, hmem, hgl]
            · simp [ih3, keepFrom, himp, hn, hmem, hgl]
            · simpa [addNames, himp, hn, hmem] using ih4
      | none =>
        by_cases hgl : isGlobalLine s
        · have hg : gatherStmt st s =
              GState.mk st.ext (st.globals ++ [s]) st.body st.seen := by
            simp [gatherStmt, himp, hn, hgl]
          obtain ⟨ih1, ih2, ih3, ih4⟩ :=
            ih (GState.mk st.ext (st.globals ++ [s]) st.body st.seen)
          rw [hg]
          refine ⟨?_, ?_, ?_, ?_⟩
          · simp [ih1, himp]
          · simp [ih2, keepFrom, himp, hn, hgl]
          · simp [ih3, keepFrom, himp, hn, hgl]
          · simpa [addNames, himp, hn] using ih4
        · have hg : gatherStmt st s =
              GState.mk st.ext st.globals (st.body ++ [s]) st.seen := by
            simp [gatherStmt, himp, hn, hgl]
          obtain ⟨ih1, ih2, ih3, ih4⟩ :=
            ih (GState.mk st.ext st.globals (st.body ++ [s]) st.seen)
          rw [hg]
          refine ⟨?_, ?_, ?_, ?_⟩
          · simp [ih1, himp]
          · simp [ih2, keepFrom, himp, hn, hgl]
          · simp [ih3, keepFrom, himp, hn, hgl]
          · simpa [addNames, himp, hn] using ih4

theorem countP_gName_eq_count (n : String) : ∀ l : List Stmt,
    l.countP (fun t => decide (gName t = some n)) = (l.filterMap gName).count n := by
  intro l
  induction l with
  | nil => simp
  | cons s rest ih =>
    cases hg : gName s with
    | some m =>
      by_cases hmn : m = n
      · subst hmn
        simp [List.countP_cons, List.filterMap_cons, hg, ih, List.count_cons]
      · simp [List.countP_cons, List.filterMap_cons, hg, ih, List.count_cons,
          hmn, Ne.symm hmn]
    | none => simp [List.countP_cons, List.filterMap_cons, hg, ih]

theorem addNames_nodup (stmts : List Stmt) : ∀ seen : List String,
    seen.Nodup → (addNames seen stmts).Nodup := by
  induction stmts with
  | nil => intro seen h; simpa [addNames] using h
  | cons s rest ih =>
    intro seen h
    cases himp : importText s with
    | some txt => simpa [addNames, himp] using ih seen h
    | none =>
      cases hn : gName s with
      | some n =>
        by_cases hm : n ∈ seen
        · simpa [addNames, himp, hn, hm] using ih seen h
        · have h2 : (seen ++ [n]).Nodup := by
            simp only [List.nodup_append, List.nodup_cons, List.not_mem_nil,
              not_false_iff, List.nodup_nil, and_true, true_and]
            exact ⟨h, fun a ha => by
              simp only [List.mem_singleton]
              intro hc
              subst hc
              exact hm ha⟩
          simpa [addNames, himp, hn, hm] using ih (seen ++ [n]) h2
      | none => simpa [addNames, himp, hn] using ih seen h
theorem keepFrom_cons_import {s : Stmt} {t : String} (h : importText s = some t)
    (seen : List String) (rest : List Stmt) :
    keepFrom seen (s :: rest) = keepFrom seen rest := by
  simp [keepFrom, h]

theorem keepFrom_cons_seen {s : Stmt} {n : String} (h1 : importText s = none)
    (h2 : gName s = some n) {seen : List String} (h3 : n ∈ seen)
    (rest : List Stmt) :
    keepFrom seen (s :: rest) = keepFrom seen rest := by
  simp [keepFrom, h1, h2, h3]

theorem keepFrom_cons_new {s : Stmt} {n : String} (h1 : importText s = none)
    (h2 : gName s = some n) {seen : List String} (h3 : n ∉ seen)
    (rest : List Stmt) :
    keepFrom seen (s :: rest) = s :: keepFrom (seen ++ [n]) rest := by
  simp [keepFrom, h1, h2, h3]

theorem keepFrom_cons_noname {s : Stmt} (h1 : importText s = none)
    (h2 : gName s = none) (seen : List String) (rest : List Stmt) :
    keepFrom seen (s :: rest) = s :: keepFrom seen rest := by
  simp [keepFrom, h1, h2]

theorem keepFrom_names_nodup (stmts : List Stmt) : ∀ seen : List String,
    ((keepFrom seen stmts).filterMap gName).Nodup
    ∧ ∀ n ∈ (keepFrom seen stmts).filterMap gName, n ∉ seen := by
  induction stmts with
  | nil => intro seen; simp [keepFrom]
  | cons s rest ih =>
    intro seen
    cases himp : importText s with
    | some txt => simpa [keepFrom_cons_import himp] using ih seen
    | none =>
      cases hn : gName s with
      | some n =>
        by_cases hm : n ∈ seen
        · simpa [keepFrom_cons_seen himp hn hm] using ih seen
        · obtain ⟨ih1, ih2⟩ := ih (seen ++ [n])
          have hnotin : n ∉ (keepFrom (seen ++ [n]) rest).filterMap gName := by
            intro hc
            exact ih2 n hc (by simp)
          rw [keepFrom_cons_new himp hn hm, List.filterMap_cons_some hn]
          constructor
          · exact List.nodup_cons.mpr ⟨hnotin, ih1⟩
          · intro m hmem
            rcases List.mem_cons.mp hmem with hmem | hmem
            · subst hmem
              exact hm
            · intro hc
              exact ih2 m hmem (by simp [hc])
      | none =>
        obtain ⟨ih1, ih2⟩ := ih seen
        rw [keepFrom_cons_noname himp hn, List.filterMap_cons_none hn]
        exact ⟨ih1, ih2⟩

theorem keepFrom_keeps_first (stmts : List Stmt) :
    ∀ (seen : List String) (n : String) (s : Stmt), n ∉ seen →
    List.find? (fun t => decide (gName t = some n)) stmts = some s →
    s ∈ keepFrom seen stmts ∧ gName s = some n := by
  induction stmts with
  | nil => intro seen n s _ h; simp at h
  | cons s0 rest ih =>
    intro seen n s hns hfind
    by_cases hg : gName s0 = some n
    · have hs : s0 = s := by
        rw [List.find?_cons_of_pos _ (by simpa using hg)] at hfind
        exact Option.some.inj hfind
      subst hs
      have himp : importText s0 = none := by
        cases h2 : importText s0 with
        | none => rfl
        | some t =>
          rw [importText_gName_none h2] at hg
          exact absurd hg (by simp)
      refine ⟨?_, hg⟩
      rw [keepFrom_cons_new himp hg hns]
      exact List.mem_cons_self s0 _
    · have hfind2 : List.find? (fun t => decide (gName t = some n)) rest
          = some s := by
        rwa [List.find?_cons_of_neg _ (by simpa using hg)] at hfind
      cases himp : importText s0 with
      | some txt =>
        rw [keepFrom_cons_import himp]
        exact ih seen n s hns hfind2
      | none =>
        cases hg0 : gName s0 with
        | some m =>
          by_cases hm : m ∈ seen
          · rw [keepFrom_cons_seen himp hg0 hm]
            exact ih seen n s hns hfind2
          · have hns2 : n ∉ seen ++ [m] := by
              simp only [List.mem_append, List.mem_singleton]
              rintro (h | h)
              · exact hns h
              · exact hg (by rw [hg0, h])
            obtain ⟨h1, h2⟩ := ih (seen ++ [m]) n s hns2 hfind2
            rw [keepFrom_cons_new himp hg0 hm]
            exact ⟨List.mem_cons_of_mem _ h1, h2⟩
        | none =>
          obtain ⟨h1, h2⟩ := ih seen n s hns hfind2
          rw [keepFrom_cons_noname himp hg0]
          exact ⟨List.mem_cons_of_mem _ h1, h2⟩

theorem find?_gName_cons_skip {s0 : Stmt} {n : String}
    (hne : gName s0 ≠ some n) (rest : List Stmt) :
    List.find? (fun t => decide (gName t = some n)) (s0 :: rest)
      = List.find? (fun t => decide (gName t = some n)) rest :=
  List.find?_cons_of_neg _ (by simpa using hne)

theorem find?_gName_cons_hit {s0 : Stmt} {n : String}
    (h : gName s0 = some n) (rest : List Stmt) :
    List.find? (fun t => decide (gName t = some n)) (s0 :: rest) = some s0 :=
  List.find?_cons_of_pos _ (by simpa using h)

theorem keepFrom_mem_first (stmts : List Stmt) :
    ∀ (seen : List String) (s : Stmt) (n : String),
    s ∈ keepFrom seen stmts → gName s = some n →
    n ∉ seen ∧ List.find? (fun t => decide (gName t = some n)) stmts = some s := by
  induction stmts with
  | nil => intro seen s n hmem _; simp [keepFrom] at hmem
  | cons s0 rest ih =>
    intro seen s n hmem hgn
    cases himp : importText s0 with
    | some txt =>
      rw [keepFrom_cons_import himp] at hmem
      obtain ⟨h1, h2⟩ := ih seen s n hmem hgn
      have hne : gName s0 ≠ some n := by
        simp [importText_gName_none himp]
      exact ⟨h1, (find?_gName_cons_skip hne rest).trans h2⟩
    | none =>
      cases hg0 : gName s0 with
      | some m =>
        by_cases hm : m ∈ seen
        · rw [keepFrom_cons_seen himp hg0 hm] at hmem
          obtain ⟨h1, h2⟩ := ih seen s n hmem hgn
          have hne : gName s0 ≠ some n := by
            rw [hg0]
            intro hc
            apply h1
            rw [← Option.some.inj hc]
            exact hm
          exact ⟨h1, (find?_gName_cons_skip hne rest).trans h2⟩
        · rw [keepFrom_cons_new himp hg0 hm] at hmem
          rcases List.mem_cons.mp hmem with hmem | hmem
          · subst hmem
            have hmn : m = n := by
              rw [hgn] at hg0
              exact (Option.some.inj hg0).symm
            subst hmn
            exact ⟨hm, find?_gName_cons_hit hgn rest⟩
          · obtain ⟨h1, h2⟩ := ih (seen ++ [m]) s n hmem hgn
            have hnm : n ≠ m := by
              intro hc
              exact h1 (by simp [hc])
            have hne : gName s0 ≠ some n := by
              rw [hg0]
              intro hc
              exact hnm (Option.some.inj hc).symm
            refine ⟨fun hc => h1 (by simp [hc]), ?_⟩
            exact (find?_gName_cons_skip hne rest).trans h2
      | none =>
        rw [keepFrom_cons_noname himp hg0] at hmem
        rcases List.mem_cons.mp hmem with hmem | hmem
        · subst hmem
          rw [hgn] at hg0
          exact Option.noConfusion hg0
        · obtain ⟨h1, h2⟩ := ih seen s n hmem hgn
          have hne : gName s0 ≠ some n := by
            simp [hg0]
          exact ⟨h1, (find?_gName_cons_skip hne rest).trans h2⟩

/-! Facts about the lexicographic string order used by the emitter. -/

theorem lexLe_head_le {x y : Char} {xs ys : List Char}
    (h : lexLe (x :: xs) (y :: ys) = true) : x.toNat ≤ y.toNat := by
  by_contra hc
  have hyx : y.toNat < x.toNat := by omega
  have hxy : ¬ x.toNat < y.toNat := by omega
  simp [lexLe, hxy, hyx] at h

theorem lexLe_cons_of_eq {x y : Char} {xs ys : List Char}
    (hxy : x.toNat = y.toNat)
    (h : lexLe (x :: xs) (y :: ys) = true) : lexLe xs ys = true := by
  simpa [lexLe, hxy, lt_self_iff_false] using h

theorem lexLe_total : ∀ a b : List Char, lexLe a b = true ∨ lexLe b a = true := by
  intro a
  induction a with
  | nil => intro b; left; simp [lexLe]
  | cons x xs ih =>
    intro b
    cases b with
    | nil => right; simp [lexLe]
    | cons y ys =>
      rcases Nat.lt_trichotomy x.toNat y.toNat with h | h | h
      · left; simp [lexLe, h]
      · rcases ih ys with h2 | h2
        · left; simp [lexLe, h, lt_self_iff_false, h2]
        · right; simp [lexLe, h.symm, lt_self_iff_false, h2]
      · right; simp [lexLe, h]

theorem lexLe_trans : ∀ a b c : List Char, lexLe a b = true →
    lexLe b c = true → lexLe a c = true := by
  intro a
  induction a with
  | nil => intro b c _ _; simp [lexLe]
  | cons x xs ih =>
    intro b c hab hbc
    cases b with
    | nil => simp [lexLe] at hab
    | cons y ys =>
      cases c with
      | nil => simp [lexLe] at hbc
      | cons z zs =>
        have h1 := lexLe_head_le hab
        have h2 := lexLe_head_le hbc
        rcases Nat.lt_trichotomy x.toNat z.toNat with h | h | h
        · simp [lexLe, h]
        · have hxy : x.toNat = y.toNat := by omega
          have hyz : y.toNat = z.toNat := by omega
          have t1 := lexLe_cons_of_eq hxy hab
          have t2 := lexLe_cons_of_eq hyz hbc
          simp [lexLe, h, lt_self_iff_false, ih ys zs t1 t2]
        · omega

instance : IsTotal String strLe :=
  ⟨fun a b => lexLe_total a.data b.data⟩

instance : IsTrans String strLe :=
  ⟨fun a b c hab hbc => lexLe_trans a.data b.data c.data hab hbc⟩

/-! Unfolding lemmas for the driver. -/

theorem mainRun_ok {pkg : String} {modules : List (String × List Stmt)}
    {out : Output} (h : mainRun pkg modules = Except.ok out) :
    out = outputOf pkg modules := by
  unfold mainRun at h
  cases htopo : topo_sort (buildDeps pkg modules) with
  | error e => rw [htopo] at h; exact Except.noConfusion h
  | ok ns => rw [htopo] at h; exact (Except.ok.inj h).symm

theorem mainRun_error {pkg : String} {modules : List (String × List Stmt)}
    {e : String} (h : mainRun pkg modules = Except.error e) :
    topo_sort (buildDeps pkg modules) = Except.error e := by
  unfold mainRun at h
  cases htopo : topo_sort (buildDeps pkg modules) with
  | error e2 => rw [htopo] at h; rw [← Except.error.inj h]
  | ok ns => rw [htopo] at h; exact Except.noConfusion h

theorem topo_sort_error_msg {deps : List (String × List String)} {e : String}
    (h : topo_sort deps = Except.error e) :
    e = "Cycle detected in dependency graph" := by
  simp only [topo_sort] at h
  split at h
  · exact Except.noConfusion h
  · exact (Except.error.inj h).symm

theorem buildDeps_targets_registered (pkg : String)
    (modules : List (String × List Stmt)) :
    ∀ p ∈ buildDeps pkg modules, ∀ d ∈ p.2, d ∈ moduleNames modules := by
  intro p hp d hd
  rcases List.mem_map.mp hp with ⟨q, _, rfl⟩
  rw [List.mem_dedup, List.mem_filter] at hd
  exact of_decide_eq_true hd.2

/-! No intra-package import survives the remover, at any depth. -/

theorem removeSmall_clean (pkg : String) :
    ∀ t t2 : SmallStmt, removeSmall pkg t = some t2 →
    hasIntraSmall pkg t2 = false := by
  intro t t2 h
  cases t with
  | imp ns =>
    simp only [removeSmall, leave_Import] at h
    by_cases he : (ns.filter (fun a => !(intraName pkg (get_module_name a.1)))).isEmpty
    · rw [if_pos he] at h
      exact Option.noConfusion h
    · rw [if_neg he] at h
      rw [← Option.some.inj h]
      simp only [hasIntraSmall, List.any_eq_false]
      intro a ha
      have := (List.mem_filter.mp ha).2
      simp only [Bool.not_eq_true'] at this
      simp [this]
  | impFrom r m ns =>
    cases m with
    | none =>
      simp only [removeSmall, leave_ImportFrom] at h
      split at h
      · exact Option.noConfusion h
      · rename_i hc
        rw [← Option.some.inj h]
        simp only [hasIntraSmall]
        simpa using hc
    | some e =>
      simp only [removeSmall, leave_ImportFrom] at h
      split at h
      · exact Option.noConfusion h
      · rename_i hc
        rw [← Option.some.inj h]
        simp only [hasIntraSmall]
        simpa using hc
  | assign ts v => rw [← Option.some.inj h]; rfl
  | annAssign tg r => rw [← Option.some.inj h]; rfl
  | exprOther tx => rw [← Option.some.inj h]; rfl

mutual
theorem removeStmt_clean (pkg : String) :
    ∀ s : Stmt, hasIntraStmt pkg (removeStmt pkg s) = false
  | Stmt.simple ss => by
    simp only [removeStmt, hasIntraStmt, List.any_eq_false]
    intro x hx
    rcases List.mem_filterMap.mp hx with ⟨t, _, ht⟩
    simp [removeSmall_clean pkg t x ht]
  | Stmt.funcDef n b r => by
    simpa only [removeStmt, hasIntraStmt] using removeStmts_clean pkg b
  | Stmt.classDef n b r => by
    simpa only [removeStmt, hasIntraStmt] using removeStmts_clean pkg b
  | Stmt.compoundOther b t => by
    simpa only [removeStmt, hasIntraStmt] using removeStmts_clean pkg b

theorem removeStmts_clean (pkg : String) :
    ∀ l : List Stmt, hasIntraStmts pkg (removeStmts pkg l) = false
  | [] => rfl
  | s :: rest => by
    rw [removeStmts]
    have hs := removeStmt_clean pkg s
    cases hrs : removeStmt pkg s with
    | simple ss =>
      cases ss with
      | nil => exact removeStmts_clean pkg rest
      | cons a as =>
        rw [hrs] at hs
        simp only [hasIntraStmts, Bool.or_eq_false_iff]
        exact ⟨hs, removeStmts_clean pkg rest⟩
    | funcDef n b r =>
      rw [hrs] at hs
      simp only [hasIntraStmts, Bool.or_eq_false_iff]
      exact ⟨hs, removeStmts_clean pkg rest⟩
    | classDef n b r =>
      rw [hrs] at hs
      simp only [hasIntraStmts, Bool.or_eq_false_iff]
      exact ⟨hs, removeStmts_clean pkg rest⟩
    | compoundOther b t =>
      rw [hrs] at hs
      simp only [hasIntraStmts, Bool.or_eq_false_iff]
      exact ⟨hs, removeStmts_clean pkg rest⟩
end

/-! Claim theorems. -/

/-- C1 counterexample: on the spec's dangling-reference scenario (module
a contains from pkg.missing import x and no module missing exists) the
engine raises nothing and produces output: the import is stripped and
the run succeeds with a header-only file. -/
theorem c1_missing_dep_no_error :
    mainRun "pkg" c1Mods
      = Except.ok (Output.mk (headerLines "pkg") [] [] []) := rfl

/-- C1 amended: a dependency on a name absent from the module registry
is silently dropped while building the graph — every recorded edge
targets a registered module — and the engine's only error is the cycle
message, so no UnresolvedDependencyError (or any other error) is ever
raised for a dangling reference. -/
theorem c1_unresolved_dependency_silently_dropped :
    (∀ (pkg : String) (modules : List (String × List Stmt)),
      ∀ p ∈ buildDeps pkg modules, ∀ d ∈ p.2, d ∈ moduleNames modules)
    ∧ ∀ (pkg : String) (modules : List (String × List Stmt)) (e : String),
      mainRun pkg modules = Except.error e →
      e = "Cycle detected in dependency graph" :=
  ⟨buildDeps_targets_registered,
   fun _ _ _ h => topo_sort_error_msg (mainRun_error h)⟩

/-- C1 witness: the amended theorem applied at concrete inputs — the
recorded edge a -> b of c3Mods targets a registered module, and the
cyclic tree's error carries the fixed message. -/
theorem c1_witness :
    ("b" : String) ∈ moduleNames c3Mods
    ∧ ("Cycle detected in dependency graph" : String)
        = "Cycle detected in dependency graph" :=
  ⟨c1_unresolved_dependency_silently_dropped.1 "pkg" c3Mods ("a", ["b"])
      (by decide) "b" (by decide),
   c1_unresolved_dependency_silently_dropped.2 "pkg" c5ModsXY
      "Cycle detected in dependency graph" rfl⟩

/-- C2 counterexample: two modules assigning the same name x produce a
hoisted-globals section holding only the first assignment; the later
module's x = 2 does not appear anywhere in the output. -/
theorem c2_counterexample :
    mainRun "pkg" c2Mods = Except.ok (Output.mk (headerLines "pkg") []
      [assignLine "x" "1"] [])
    ∧ assignLine "x" "2" ∉ [assignLine "x" "1"] := by
  refine ⟨rfl, ?_⟩
  intro hc
  have := List.mem_singleton.mp hc
  simp [assignLine] at this

/-- C2 amended: same-named top-level plain assignments are deduplicated
by the shared seen_defs table: the bare names of the single-target plain
assignments in the hoisted globals are pairwise distinct, and each
hoisted assignment is the first statement binding its name in the
emission stream. -/
theorem c2_same_name_assign_dedup :
    ∀ (pkg : String) (modules : List (String × List Stmt)) (out : Output),
    mainRun pkg modules = Except.ok out →
    (out.globals.filterMap gName).Nodup
    ∧ ∀ s ∈ out.globals, ∀ n : String, gName s = some n →
        List.find? (fun t => decide (gName t = some n))
          (emissionStream pkg modules) = some s := by
  intro pkg modules out h
  have hout := mainRun_ok h
  subst hout
  obtain ⟨_, hglob, _, _⟩ := gatherList_spec (emissionStream pkg modules) initState
  have hg2 : (outputOf pkg modules).globals
      = (keepFrom [] (emissionStream pkg modules)).filter isGlobalLine := by
    calc (outputOf pkg modules).globals
        = (gatherList initState (emissionStream pkg modules)).globals := rfl
      _ = ([] : List Stmt)
            ++ (keepFrom [] (emissionStream pkg modules)).filter isGlobalLine :=
          hglob
      _ = _ := List.nil_append _
  rw [hg2]
  constructor
  · exact ((keepFrom_names_nodup (emissionStream pkg modules) []).1).sublist
      ((List.filter_sublist _).filterMap gName)
  · intro s hs n hgn
    exact (keepFrom_mem_first (emissionStream pkg modules) [] s n
      (List.mem_filter.mp hs).1 hgn).2

/-- C2 witness: the amended theorem applied at c2Mods — the kept
assignment x = 1 is the first binder of x in the stream. -/
theorem c2_witness :
    List.find? (fun t => decide (gName t = some "x"))
      (emissionStream "pkg" c2Mods) = some (assignLine "x" "1") :=
  (c2_same_name_assign_dedup "pkg" c2Mods (outputOf "pkg" c2Mods) rfl).2
    (assignLine "x" "1") (List.mem_singleton_self _) "x" rfl

/-- C3 counterexample: a from pkg.b import y nested inside a function
body is recorded as a dependency edge a -> b, and the emitted function
body no longer contains the import — it is not left untouched. -/
theorem c3_counterexample :
    buildDeps "pkg" c3Mods = [("b", []), ("a", ["b"])]
    ∧ mainRun "pkg" c3Mods = Except.ok (Output.mk (headerLines "pkg") []
        [assignLine "y" "0"]
        [Stmt.funcDef "f" [Stmt.simple [SmallStmt.exprOther "return y"]] "()"]) :=
  ⟨rfl, rfl⟩

/-- C3 amended: imports nested inside function or class bodies ARE
classified: the dependency collector recurses into function bodies, and
after the remover runs no intra-package import remains anywhere in a
statement, at any nesting depth. -/
theorem c3_nested_imports_classified :
    (∀ (pkg n : String) (b : List Stmt) (r : String),
      collectStmt pkg (Stmt.funcDef n b r) = collectStmts pkg b
      ∧ removeStmt pkg (Stmt.funcDef n b r)
          = Stmt.funcDef n (removeStmts pkg b) r)
    ∧ ∀ (pkg : String) (s : Stmt), hasIntraStmt pkg (removeStmt pkg s) = false :=
  ⟨fun _ _ _ _ => ⟨rfl, rfl⟩, fun pkg s => removeStmt_clean pkg s⟩

/-- C4: evaluation at the failing input — for package pkg, the
classifier drops from pkgextra import x entirely (leave_ImportFrom uses
startswith without the trailing dot), and the whole run emits neither
the statement nor any external-import line for it. -/
theorem c4_prefix_match_drops_external_import :
    leave_ImportFrom "pkg" 0 (some (ModExpr.name "pkgextra")) [("x", none)] = none
    ∧ mainRun "pkg" c4Mods = Except.ok (Output.mk (headerLines "pkg") [] [] []) :=
  ⟨rfl, rfl⟩

/-- C5 counterexample: two different two-module cycles (x/y and a/b)
raise the identical fixed error value, so the raised error carries no
cycle membership; no output is produced in either case. -/
theorem c5_counterexample :
    mainRun "pkg" c5ModsXY = Except.error "Cycle detected in dependency graph"
    ∧ mainRun "pkg" c5ModsAB = Except.error "Cycle detected in dependency graph" :=
  ⟨rfl, rfl⟩

/-- C7 counterexample: x is defined as a function in two modules (b and
c), but an assignment to x in the topologically earliest module a enters
the shared symbol table first, so zero (not exactly one) function or
class definitions of x appear in the output body. -/
theorem c7_counterexample :
    mainRun "pkg" c7Mods = Except.ok (Output.mk (headerLines "pkg") []
      [assignLine "x" "1"] [])
    ∧ (Output.mk (headerLines "pkg") [] [assignLine "x" "1"]
        ([] : List Stmt)).body.countP
        (fun t => decide (gName t = some "x")) = 0 :=
  ⟨rfl, rfl⟩

/-- C7 amended: provided the first statement binding a name in the
emission stream is a function or class definition, exactly one
definition of that name — that first one — appears in the output body,
and all later same-name definitions are dropped. -/
theorem c7_first_def_wins :
    ∀ (pkg : String) (modules : List (String × List Stmt)) (out : Output)
      (n : String) (s : Stmt),
    mainRun pkg modules = Except.ok out →
    List.find? (fun t => decide (gName t = some n))
      (emissionStream pkg modules) = some s →
    isNamedDef s = true →
    s ∈ out.body ∧ out.body.countP (fun t => decide (gName t = some n)) = 1 := by
  intro pkg modules out n s h hfind hdef
  have hout := mainRun_ok h
  subst hout
  obtain ⟨_, _, hbody, _⟩ := gatherList_spec (emissionStream pkg modules) initState
  have hb2 : (outputOf pkg modules).body
      = (keepFrom [] (emissionStream pkg modules)).filter
          (fun s => !isGlobalLine s) := by
    calc (outputOf pkg modules).body
        = (gatherList initState (emissionStream pkg modules)).body := rfl
      _ = ([] : List Stmt) ++ (keepFrom [] (emissionStream pkg modules)).filter
            (fun s => !isGlobalLine s) := hbody
      _ = _ := List.nil_append _
  obtain ⟨hk, hgn⟩ := keepFrom_keeps_first (emissionStream pkg modules) [] n s
    (by simp) hfind
  have hngl : isGlobalLine s = false := by
    cases s with
    | funcDef a b c => rfl
    | classDef a b c => rfl
    | simple ss => exact absurd hdef (by simp [isNamedDef])
    | compoundOther b t => exact absurd hdef (by simp [isNamedDef])
  have hmem : s ∈ (keepFrom [] (emissionStream pkg modules)).filter
      (fun s => !isGlobalLine s) :=
    List.mem_filter.mpr ⟨hk, by simp [hngl]⟩
  rw [hb2]
  refine ⟨hmem, ?_⟩
  have hle : ((keepFrom [] (emissionStream pkg modules)).filter
      (fun s => !isGlobalLine s)).countP (fun t => decide (gName t = some n))
      ≤ (keepFrom [] (emissionStream pkg modules)).countP
        (fun t => decide (gName t = some n)) :=
    List.Sublist.countP_le _ (List.filter_sublist _)
  have hone : (keepFrom [] (emissionStream pkg modules)).countP
      (fun t => decide (gName t = some n)) ≤ 1 := by
    rw [countP_gName_eq_count]
    exact List.nodup_iff_count_le_one.mp
      ((keepFrom_names_nodup (emissionStream pkg modules) []).1) n
  have hpos : 0 < ((keepFrom [] (emissionStream pkg modules)).filter
      (fun s => !isGlobalLine s)).countP (fun t => decide (gName t = some n)) :=
    List.countP_pos_iff.mpr ⟨s, hmem, by simp [hgn]⟩
  omega

/-- C7 witness: the amended theorem applied at c7wMods, where the first
binder of x is the function definition from module b. -/
theorem c7_witness :
    Stmt.funcDef "x" [] "(): pass" ∈ (outputOf "pkg" c7wMods).body
    ∧ (outputOf "pkg" c7wMods).body.countP
        (fun t => decide (gName t = some "x")) = 1 :=
  c7_first_def_wins "pkg" c7wMods (outputOf "pkg" c7wMods) "x"
    (Stmt.funcDef "x" [] "(): pass") rfl rfl rfl

/-- C8: the external-import section is sorted in the code-point
lexicographic order, has no duplicates, contains exactly the rendered
texts collected from kept top-level import lines, and each collected
text occurs exactly once — two modules with the identical import line
contribute one line. -/
theorem c8_external_imports_unique_sorted :
    ∀ (pkg : String) (modules : List (String × List Stmt)) (out : Output),
    mainRun pkg modules = Except.ok out →
    List.Sorted strLe out.ext_imports ∧ out.ext_imports.Nodup
    ∧ (∀ s : String, s ∈ out.ext_imports ↔
        s ∈ (gatherList initState (emissionStream pkg modules)).ext)
    ∧ ∀ s ∈ (gatherList initState (emissionStream pkg modules)).ext,
        out.ext_imports.count s = 1 := by
  intro pkg modules out h
  have hout := mainRun_ok h
  subst hout
  have hext : (outputOf pkg modules).ext_imports
      = List.insertionSort strLe
          (gatherList initState (emissionStream pkg modules)).ext.dedup := rfl
  rw [hext]
  have hperm := List.perm_insertionSort strLe
    (gatherList initState (emissionStream pkg modules)).ext.dedup
  refine ⟨List.sorted_insertionSort strLe _, ?_, ?_, ?_⟩
  · exact hperm.nodup_iff.mpr (List.nodup_dedup _)
  · intro s
    rw [hperm.mem_iff, List.mem_dedup]
  · intro s hs
    rw [hperm.count_eq]
    exact List.count_eq_one_of_mem (List.nodup_dedup _) (List.mem_dedup.mpr hs)

/-- C8 witness: at c8Mods (both modules contain import os) the theorem
yields exactly one import os line in the emitted section. -/
theorem c8_witness :
    mainRun "pkg" c8Mods = Except.ok (Output.mk (headerLines "pkg")
      ["import os", "import sys"] [assignLine "a" "1"] [])
    ∧ (outputOf "pkg" c8Mods).ext_imports.count "import os" = 1 :=
  ⟨rfl, (c8_external_imports_unique_sorted "pkg" c8Mods
      (outputOf "pkg" c8Mods) rfl).2.2.2 "import os" (by decide)⟩

/-- C9 counterexample: with an empty module registry (the discovery
outcome for a missing root or a root without source files) the engine
raises nothing and produces a header-only output file, instead of
failing with DiscoveryError. -/
theorem c9_counterexample :
    mainRun "pkg" [] = Except.ok (Output.mk (headerLines "pkg") [] [] []) := rfl

/-- C9 amended: for every package name, running the engine on an empty
module registry succeeds without any error and writes an output
consisting of only the two header lines. -/
theorem c9_empty_registry_header_only (pkg : String) :
    mainRun pkg [] = Except.ok (Output.mk (headerLines pkg) [] [] []) := rfl

/-- C10: the deduplication symbol table is shared between named
definitions and plain single-target assignments: no name enters
seen_defs twice, the binding names across hoisted globals and body are
pairwise distinct, every kept binding statement is the first statement
of the stream binding its name (so a definition after an earlier
same-name assignment is dropped, and vice versa), and the first binder
of every name is kept. -/
theorem c10_shared_symbol_table (stmts : List Stmt) :
    (gatherList initState stmts).seen.Nodup
    ∧ (((gatherList initState stmts).globals
        ++ (gatherList initState stmts).body).filterMap gName).Nodup
    ∧ (∀ s ∈ (gatherList initState stmts).globals
          ++ (gatherList initState stmts).body,
        ∀ n : String, gName s = some n →
        List.find? (fun t => decide (gName t = some n)) stmts = some s)
    ∧ ∀ (n : String) (s : Stmt),
        List.find? (fun t => decide (gName t = some n)) stmts = some s →
        s ∈ (gatherList initState stmts).globals
          ++ (gatherList initState stmts).body := by
  obtain ⟨_, hglob, hbody, hseen⟩ := gatherList_spec stmts initState
  have hg2 : (gatherList initState stmts).globals
      = (keepFrom [] stmts).filter isGlobalLine :=
    hglob.trans (List.nil_append _)
  have hb2 : (gatherList initState stmts).body
      = (keepFrom [] stmts).filter (fun s => !isGlobalLine s) :=
    hbody.trans (List.nil_append _)
  refine ⟨?_, ?_, ?_, ?_⟩
  · rw [hseen]
    exact addNames_nodup stmts [] List.nodup_nil
  · rw [hg2, hb2]
    have hperm : List.Perm
        (((keepFrom [] stmts).filter isGlobalLine
          ++ (keepFrom [] stmts).filter (fun s => !isGlobalLine s)).filterMap gName)
        ((keepFrom [] stmts).filterMap gName) :=
      List.Perm.filterMap gName
        (List.filter_append_perm isGlobalLine (keepFrom [] stmts))
    exact hperm.nodup_iff.mpr (keepFrom_names_nodup stmts []).1
  · intro s hs n hgn
    rw [hg2, hb2, List.mem_append] at hs
    have hk : s ∈ keepFrom [] stmts := by
      rcases hs with hs | hs
      · exact (List.mem_filter.mp hs).1
      · exact (List.mem_filter.mp hs).1
    exact (keepFrom_mem_first stmts [] s n hk hgn).2
  · intro n s hfind
    obtain ⟨hk, _⟩ := keepFrom_keeps_first stmts [] n s (by simp) hfind
    rw [hg2, hb2, List.mem_append]
    by_cases hgl : isGlobalLine s
    · exact Or.inl (List.mem_filter.mpr ⟨hk, by simp [hgl]⟩)
    · exact Or.inr (List.mem_filter.mpr ⟨hk, by simp [hgl]⟩)

/-- C10 witness: at the concrete stream of c10Stmts — an assignment to
x then a function definition of x — the kept binder of x is the
assignment (the stream-first statement binding x). -/
theorem c10_witness :
    (gatherList initState c10Stmts).seen.Nodup
    ∧ List.find? (fun t => decide (gName t = some "x")) c10Stmts
        = some (assignLine "x" "1") :=
  ⟨(c10_shared_symbol_table c10Stmts).1,
   (c10_shared_symbol_table c10Stmts).2.2.1 (assignLine "x" "1")
     (List.mem_append.mpr (Or.inl (List.mem_singleton_self _))) "x" rfl⟩

/-! Lemmas about the worklist topological sort. -/

theorem minusAll_nil (ds : List String) : minusAll ds [] = ds := by
  simp [minusAll]

theorem minusAll_concat (ds o : List String) (u : String) :
    minusAll ds (o ++ [u]) = (minusAll ds o).filter (fun d => decide (d ≠ u)) := by
  simp only [minusAll, List.filter_filter]
  apply List.filter_congr
  intro d _
  by_cases h1 : d ∈ o
  · simp [h1]
  · by_cases h2 : d = u
    · simp [h1, h2]
    · simp [h1, h2]

theorem forall_mem_iff_minusAll_nil {ds o : List String} :
    (∀ d ∈ ds, d ∈ o) ↔ minusAll ds o = [] := by
  simp [minusAll, List.filter_eq_nil_iff]

theorem minusAll_of_not_mem {ds o : List String} {u : String}
    (h : u ∉ minusAll ds o) : minusAll ds (o ++ [u]) = minusAll ds o := by
  rw [minusAll_concat]
  apply List.filter_eq_self.mpr
  intro d hd
  simp only [decide_eq_true_eq]
  intro hc
  subst hc
  exact h hd

theorem topoRemove_spec (u : String) (o : List String) :
    ∀ D : List (String × List String),
    topoRemove u (removeAllDeps D o)
      = (removeAllDeps D (o ++ [u]), newlyReady D o u)
  | [] => rfl
  | p :: rest => by
    have ih := topoRemove_spec u o rest
    simp only [removeAllDeps, newlyReady, minusAll_concat] at ih
    by_cases hu : u ∈ minusAll p.2 o
    · by_cases hc : ∀ a ∈ minusAll p.2 o, a = u
      · simp [removeAllDeps, topoRemove, newlyReady, List.filter_cons, hu,
          ih, minusAll_concat]
        rw [if_pos hc, if_pos hc]
        simp
      · simp [removeAllDeps, topoRemove, newlyReady, List.filter_cons, hu,
          ih, minusAll_concat]
        rw [if_neg hc, if_neg hc]
        simp
    · simp [removeAllDeps, topoRemove, newlyReady, List.filter_cons, hu, ih,
        minusAll_concat, minusAll_of_not_mem hu]
      symm
      apply List.filter_eq_self.mpr
      intro a ha
      simp only [Bool.not_eq_true', decide_eq_false_iff_not]
      intro hc
      subst hc
      exact hu ha

theorem removeAllDeps_nil (D : List (String × List String)) :
    removeAllDeps D [] = D := by
  simp [removeAllDeps, minusAll_nil]

theorem key_entry_unique {D : List (String × List String)}
    (hK : (keysOf D).Nodup) {p q : String × List String}
    (hp : p ∈ D) (hq : q ∈ D) (h : p.1 = q.1) : p = q := by
  induction D with
  | nil => cases hp
  | cons r rest ih =>
    rw [keysOf, List.map_cons, List.nodup_cons] at hK
    rcases List.mem_cons.mp hp with hp1 | hp2
    · rcases List.mem_cons.mp hq with hq1 | hq2
      · rw [hp1, hq1]
      · exfalso
        apply hK.1
        rw [← hp1, h]
        exact List.mem_map_of_mem Prod.fst hq2
    · rcases List.mem_cons.mp hq with hq1 | hq2
      · exfalso
        apply hK.1
        rw [← hq1, ← h]
        exact List.mem_map_of_mem Prod.fst hp2
      · exact ih hK.2 hp2 hq2

theorem exists_minBy {α : Type} (f : α → Nat) :
    ∀ l : List α, l ≠ [] → ∃ a ∈ l, ∀ b ∈ l, f a ≤ f b
  | [], h => absurd rfl h
  | [a], _ => ⟨a, List.mem_singleton_self a, by
      intro b hb
      rw [List.mem_singleton.mp hb]⟩
  | a :: b :: rest, _ => by
    obtain ⟨m, hm, hmin⟩ := exists_minBy f (b :: rest) (by simp)
    by_cases hle : f a ≤ f m
    · refine ⟨a, List.mem_cons_self _ _, ?_⟩
      intro c hc
      rcases List.mem_cons.mp hc with hc1 | hc2
      · rw [hc1]
      · exact Nat.le_trans hle (hmin c hc2)
    · refine ⟨m, List.mem_cons_of_mem _ hm, ?_⟩
      intro c hc
      rcases List.mem_cons.mp hc with hc1 | hc2
      · rw [hc1]; omega
      · exact hmin c hc2

theorem indexOf_lt_of_mem_take {o : List String} {d : String} :
    ∀ {i : Nat}, d ∈ o.take i → o.indexOf d < i := by
  induction o with
  | nil => intro i h; simp at h
  | cons x xs ih =>
    intro i h
    cases i with
    | zero => simp at h
    | succ j =>
      rw [List.take_succ_cons] at h
      by_cases hdx : x = d
      · subst hdx
        rw [List.indexOf_cons_self]
        omega
      · rcases List.mem_cons.mp h with hc | h2
        · exact absurd hc.symm hdx
        · rw [List.indexOf_cons_ne _ hdx]
          have := ih h2
          omega

theorem take_append_le {α : Type} (l₁ l₂ : List α) {n : Nat}
    (h : n ≤ l₁.length) : (l₁ ++ l₂).take n = l₁.take n := by
  rw [List.take_append_eq_append_take]
  have h0 : n - l₁.length = 0 := by omega
  simp [h0]

theorem topoInv_init (D : List (String × List String))
    (hK : (keysOf D).Nodup) :
    TopoInv D D [] ((D.filter (fun p => p.2.isEmpty)).map Prod.fst) := by
  refine ⟨(removeAllDeps_nil D).symm, ?_, ?_, ?_, ?_, ?_⟩
  · intro x hx
    cases hx
  · intro x hx
    rcases List.mem_map.mp hx with ⟨q, hq, rfl⟩
    exact List.mem_map_of_mem Prod.fst (List.mem_filter.mp hq).1
  · rw [List.nil_append]
    exact hK.sublist (List.Sublist.map Prod.fst (List.filter_sublist D))
  · intro p hp
    constructor
    · intro hall
      right
      have hnil : p.2 = [] := by
        rw [List.eq_nil_iff_forall_not_mem]
        intro a ha
        cases hall a ha
      exact List.mem_map_of_mem Prod.fst
        (List.mem_filter.mpr ⟨hp, by simp [hnil]⟩)
    · intro hr
      rcases hr with hr | hr
      · cases hr
      · rcases List.mem_map.mp hr with ⟨q, hq, hq1⟩
        have hqf := List.mem_filter.mp hq
        have hqp : q = p := key_entry_unique hK hqf.1 hp hq1
        intro d hd
        rw [hqp] at hqf
        rw [List.isEmpty_iff.mp hqf.2] at hd
        cases hd
  · intro p hp i hi
    simp at hi

theorem topoInv_step (D : List (String × List String))
    (hK : (keysOf D).Nodup) {dc : List (String × List String)}
    {order : List String} {u : String} {rest : List String}
    (inv : TopoInv D dc order (u :: rest)) :
    TopoInv D (topoRemove u dc).1 (order ++ [u])
      (rest ++ (topoRemove u dc).2) := by
  have hspec : topoRemove u dc
      = (removeAllDeps D (order ++ [u]), newlyReady D order u) := by
    rw [inv.hdc]
    exact topoRemove_spec u order D
  rw [hspec]
  have hndo : order.Nodup := (List.nodup_append.mp inv.hnd).1
  have hndur : (u :: rest).Nodup := (List.nodup_append.mp inv.hnd).2.1
  have hdisj : order.Disjoint (u :: rest) := (List.nodup_append.mp inv.hnd).2.2
  have hu_key : u ∈ keysOf D := inv.hrsub u (List.mem_cons_self u rest)
  have hnewly : ∀ x ∈ newlyReady D order u,
      ∃ p ∈ D, p.1 = x ∧ u ∈ minusAll p.2 order
        ∧ minusAll p.2 (order ++ [u]) = [] := by
    intro x hx
    rcases List.mem_map.mp hx with ⟨q, hq, rfl⟩
    have hqf := List.mem_filter.mp hq
    have hcond := hqf.2
    simp only [Bool.and_eq_true, decide_eq_true_eq, List.isEmpty_iff] at hcond
    exact ⟨q, hqf.1, rfl, hcond.1, hcond.2⟩
  have hnewly_not : ∀ x ∈ newlyReady D order u,
      x ∉ order ∧ x ≠ u ∧ x ∉ rest := by
    intro x hx
    rcases hnewly x hx with ⟨p, hp, hp1, humem, _⟩
    have hmf := List.mem_filter.mp humem
    have huno : u ∉ order := of_decide_eq_true hmf.2
    have hnot : ¬ (∀ d ∈ p.2, d ∈ order) := by
      intro hc
      exact huno (hc u hmf.1)
    have hnr : ¬ (p.1 ∈ order ∨ p.1 ∈ u :: rest) := fun hc =>
      hnot ((inv.hchar p hp).mpr hc)
    push_neg at hnr
    rw [hp1] at hnr
    refine ⟨hnr.1, ?_, ?_⟩
    · intro hc
      exact hnr.2 (by rw [hc]; exact List.mem_cons_self u rest)
    · intro hc
      exact hnr.2 (List.mem_cons_of_mem _ hc)
  have hnewly_nodup : (newlyReady D order u).Nodup :=
    hK.sublist (List.Sublist.map Prod.fst (List.filter_sublist D))
  have hnewly_sub : ∀ x ∈ newlyReady D order u, x ∈ keysOf D := by
    intro x hx
    rcases List.mem_map.mp hx with ⟨q, hq, rfl⟩
    exact List.mem_map_of_mem Prod.fst (List.mem_filter.mp hq).1
  refine ⟨rfl, ?_, ?_, ?_, ?_, ?_⟩
  · intro x hx
    rcases List.mem_append.mp hx with hx | hx
    · exact inv.hsub x hx
    · rw [List.mem_singleton.mp hx]
      exact hu_key
  · intro x hx
    rcases List.mem_append.mp hx with hx | hx
    · exact inv.hrsub x (List.mem_cons_of_mem _ hx)
    · exact hnewly_sub x hx
  · have hres : (order ++ [u]) ++ (rest ++ newlyReady D order u)
        = (order ++ u :: rest) ++ newlyReady D order u := by
      simp [List.append_assoc]
    rw [hres, List.nodup_append]
    refine ⟨inv.hnd, hnewly_nodup, ?_⟩
    intro a ha han
    have h3 := hnewly_not a han
    rcases List.mem_append.mp ha with h | h
    · exact h3.1 h
    · rcases List.mem_cons.mp h with h | h
      · exact h3.2.1 h
      · exact h3.2.2 h
  · intro p hp
    constructor
    · intro hall
      by_cases h1 : p.1 ∈ order
      · exact Or.inl (List.mem_append.mpr (Or.inl h1))
      by_cases h2 : p.1 = u
      · exact Or.inl (List.mem_append.mpr (Or.inr (by simp [h2])))
      by_cases h3 : p.1 ∈ rest
      · exact Or.inr (List.mem_append.mpr (Or.inl h3))
      right
      apply List.mem_append.mpr
      right
      have hnotold : ¬ ∀ d ∈ p.2, d ∈ order := by
        intro hc
        rcases (inv.hchar p hp).mp hc with h | h
        · exact h1 h
        · rcases List.mem_cons.mp h with h | h
          · exact h2 h
          · exact h3 h
      have hnew_empty : minusAll p.2 (order ++ [u]) = [] :=
        forall_mem_iff_minusAll_nil.mp hall
      have hne : minusAll p.2 order ≠ [] := fun hc =>
        hnotold (forall_mem_iff_minusAll_nil.mpr hc)
      have hu_mem : u ∈ minusAll p.2 order := by
        rcases List.exists_mem_of_ne_nil _ hne with ⟨d, hd⟩
        have hd2 := List.mem_filter.mp hd
        have hdno : d ∉ order := of_decide_eq_true hd2.2
        rcases List.mem_append.mp (hall d hd2.1) with h | h
        · exact absurd h hdno
        · rw [← List.mem_singleton.mp h]
          exact hd
      exact List.mem_map.mpr ⟨p, List.mem_filter.mpr ⟨hp, by
        simp [hu_mem, hnew_empty]⟩, rfl⟩
    · intro hrhs
      rcases hrhs with h | h
      · rcases List.mem_append.mp h with h | h
        · intro d hd
          exact List.mem_append.mpr
            (Or.inl ((inv.hchar p hp).mpr (Or.inl h) d hd))
        · have hpu : p.1 = u := List.mem_singleton.mp h
          have hold := (inv.hchar p hp).mpr
            (Or.inr (by rw [hpu]; exact List.mem_cons_self u rest))
          intro d hd
          exact List.mem_append.mpr (Or.inl (hold d hd))
      · rcases List.mem_append.mp h with h | h
        · have hold := (inv.hchar p hp).mpr
            (Or.inr (List.mem_cons_of_mem _ h))
          intro d hd
          exact List.mem_append.mpr (Or.inl (hold d hd))
        · rcases List.mem_map.mp h with ⟨q, hq, hq1⟩
          have hqf := List.mem_filter.mp hq
          have hqp : q = p := key_entry_unique hK hqf.1 hp hq1
          have hcond := hqf.2
          simp only [Bool.and_eq_true, decide_eq_true_eq,
            List.isEmpty_iff] at hcond
          rw [hqp] at hcond
          exact forall_mem_iff_minusAll_nil.mpr hcond.2
  · intro p hp i hi hget d hd
    have hlen : (order ++ [u]).length = order.length + 1 := by
      simp
    by_cases hlt : i < order.length
    · have hget2 : order.get ⟨i, hlt⟩ = p.1 := by
        rw [← hget]
        simp only [List.get_eq_getElem]
        exact (List.getElem_append_left hlt).symm
      have hold := inv.hord p hp i hlt hget2 d hd
      rw [take_append_le order [u] (Nat.le_of_lt hlt)]
      exact hold
    · have hieq : i = order.length := by
        rw [hlen] at hi
        omega
      have hpu : p.1 = u := by
        rw [← hget]
        simp only [List.get_eq_getElem]
        exact List.getElem_concat_length order u i hieq _
      have hall : ∀ d2 ∈ p.2, d2 ∈ order :=
        (inv.hchar p hp).mpr
          (Or.inr (by rw [hpu]; exact List.mem_cons_self u rest))
      subst hieq
      rw [List.take_left]
      exact hall d hd

theorem topoLoop_sound (D : List (String × List String))
    (hK : (keysOf D).Nodup) :
    ∀ (fuel : Nat) (dc : List (String × List String)) (order ready : List String),
    TopoInv D dc order ready →
    (∀ x ∈ topoLoop fuel dc order ready, x ∈ keysOf D)
    ∧ (topoLoop fuel dc order ready).Nodup
    ∧ ∀ p ∈ D, ∀ i, (hi : i < (topoLoop fuel dc order ready).length) →
        (topoLoop fuel dc order ready).get ⟨i, hi⟩ = p.1 →
        ∀ d ∈ p.2, d ∈ (topoLoop fuel dc order ready).take i := by
  intro fuel
  induction fuel with
  | zero =>
    intro dc order ready inv
    exact ⟨inv.hsub, (List.nodup_append.mp inv.hnd).1, inv.hord⟩
  | succ fuel ih =>
    intro dc order ready inv
    cases ready with
    | nil =>
      exact ⟨inv.hsub, (List.nodup_append.mp inv.hnd).1, inv.hord⟩
    | cons u rest =>
      have step := topoInv_step D hK inv
      exact ih (topoRemove u dc).1 (order ++ [u])
        (rest ++ (topoRemove u dc).2) step

theorem topo_progress (D : List (String × List String))
    (hK : (keysOf D).Nodup)
    (hdeps : ∀ p ∈ D, ∀ d ∈ p.2, d ∈ keysOf D) (hacy : Acyclic D)
    {dc : List (String × List String)} {order : List String}
    (inv : TopoInv D dc order []) :
    ∀ m ∈ keysOf D, m ∈ order := by
  by_contra hc
  push_neg at hc
  obtain ⟨m0, hm0, hm0no⟩ := hc
  obtain ⟨T, hTperm, hTord⟩ := hacy
  have hUne : (keysOf D).filter (fun x => decide (x ∉ order)) ≠ [] := by
    intro h
    have hmU : m0 ∈ (keysOf D).filter (fun x => decide (x ∉ order)) :=
      List.mem_filter.mpr ⟨hm0, by simp [hm0no]⟩
    rw [h] at hmU
    cases hmU
  obtain ⟨u0, hu0U, hu0min⟩ :=
    exists_minBy (fun x => T.indexOf x) _ hUne
  have hu0K : u0 ∈ keysOf D := (List.mem_filter.mp hu0U).1
  have hu0no : u0 ∉ order := of_decide_eq_true (List.mem_filter.mp hu0U).2
  rcases List.mem_map.mp hu0K with ⟨p, hp, hp1⟩
  have hnot : ¬ (∀ d ∈ p.2, d ∈ order) := by
    intro hall
    rcases (inv.hchar p hp).mp hall with h | h
    · rw [hp1] at h
      exact hu0no h
    · cases h
  push_neg at hnot
  obtain ⟨d, hd, hdno⟩ := hnot
  have hdU : d ∈ (keysOf D).filter (fun x => decide (x ∉ order)) :=
    List.mem_filter.mpr ⟨hdeps p hp d hd, by simp [hdno]⟩
  have hlt : T.indexOf d < T.indexOf p.1 := hTord p hp d hd
  have hge : T.indexOf u0 ≤ T.indexOf d := hu0min d hdU
  rw [hp1] at hlt
  omega

theorem topoLoop_complete (D : List (String × List String))
    (hK : (keysOf D).Nodup)
    (hdeps : ∀ p ∈ D, ∀ d ∈ p.2, d ∈ keysOf D) (hacy : Acyclic D) :
    ∀ (fuel : Nat) (dc : List (String × List String)) (order ready : List String),
    TopoInv D dc order ready →
    (keysOf D).length ≤ fuel + order.length →
    (topoLoop fuel dc order ready).length = (keysOf D).length := by
  intro fuel
  induction fuel with
  | zero =>
    intro dc order ready inv hlen
    have hnd : order.Nodup := (List.nodup_append.mp inv.hnd).1
    have h1 : order.length ≤ (keysOf D).length :=
      (List.subperm_of_subset hnd inv.hsub).length_le
    show order.length = (keysOf D).length
    omega
  | succ fuel ih =>
    intro dc order ready inv hlen
    cases ready with
    | nil =>
      have hsup : ∀ m ∈ keysOf D, m ∈ order :=
        topo_progress D hK hdeps hacy inv
      have hnd : order.Nodup := (List.nodup_append.mp inv.hnd).1
      have h1 : order.length ≤ (keysOf D).length :=
        (List.subperm_of_subset hnd inv.hsub).length_le
      have h2 : (keysOf D).length ≤ order.length :=
        (List.subperm_of_subset hK hsup).length_le
      show order.length = (keysOf D).length
      omega
    | cons u rest =>
      have step := topoInv_step D hK inv
      have hlen2 : (keysOf D).length ≤ fuel + (order ++ [u]).length := by
        simp only [List.length_append, List.length_singleton]
        omega
      exact ih (topoRemove u dc).1 (order ++ [u])
        (rest ++ (topoRemove u dc).2) step hlen2

theorem topo_sort_sound (D : List (String × List String))
    (hK : (keysOf D).Nodup) {o : List String}
    (h : topo_sort D = Except.ok o) :
    o.Perm (keysOf D) ∧ ∀ p ∈ D, ∀ d ∈ p.2, o.indexOf d < o.indexOf p.1 := by
  obtain ⟨hsub, hnd, hord⟩ :=
    topoLoop_sound D hK D.length D []
      ((D.filter (fun p => p.2.isEmpty)).map Prod.fst) (topoInv_init D hK)
  simp only [topo_sort] at h
  split at h
  · rename_i hcond
    have ho := Except.ok.inj h
    subst ho
    have hKlen : (keysOf D).length = D.length := by
      simp [keysOf]
    have hsp := List.subperm_of_subset hnd hsub
    have hperm := hsp.perm_of_length_le (by omega)
    refine ⟨hperm, ?_⟩
    intro p hp d hd
    have hpmem : p.1 ∈ topoLoop D.length D []
        ((D.filter (fun p => p.2.isEmpty)).map Prod.fst) :=
      hperm.mem_iff.mpr (List.mem_map_of_mem Prod.fst hp)
    have hilt := List.indexOf_lt_length.mpr hpmem
    have hget : (topoLoop D.length D []
        ((D.filter (fun p => p.2.isEmpty)).map Prod.fst)).get
          ⟨(topoLoop D.length D []
            ((D.filter (fun p => p.2.isEmpty)).map Prod.fst)).indexOf p.1,
            hilt⟩ = p.1 := by
      simp only [List.get_eq_getElem]
      exact List.getElem_indexOf hilt
    have htake := hord p hp _ hilt hget d hd
    exact indexOf_lt_of_mem_take htake
  · exact Except.noConfusion h

theorem topo_sort_complete (D : List (String × List String))
    (hK : (keysOf D).Nodup)
    (hdeps : ∀ p ∈ D, ∀ d ∈ p.2, d ∈ keysOf D) (hacy : Acyclic D) :
    ∃ o, topo_sort D = Except.ok o := by
  have hKlen : (keysOf D).length = D.length := by
    simp [keysOf]
  have hlen := topoLoop_complete D hK hdeps hacy D.length D []
    ((D.filter (fun p => p.2.isEmpty)).map Prod.fst)
    (topoInv_init D hK) (by omega)
  have hcond : (topoLoop D.length D []
      ((D.filter (fun p => p.2.isEmpty)).map Prod.fst)).length = D.length := by
    omega
  refine ⟨topoLoop D.length D []
    ((D.filter (fun p => p.2.isEmpty)).map Prod.fst), ?_⟩
  simp only [topo_sort]
  rw [if_pos hcond]

/-- C6: on every acyclic dependency graph with registered dependency
targets, topo_sort succeeds and returns a permutation of the module
names in which every module appears strictly after each of its
dependencies; the result is a pure function of the graph in registration
order (the embedded worklist is seeded and served FIFO in exactly the
source's order). -/
theorem c6_topo_sort_correct :
    ∀ D : List (String × List String),
    (keysOf D).Nodup → (∀ p ∈ D, ∀ d ∈ p.2, d ∈ keysOf D) → Acyclic D →
    ∃ o, topo_sort D = Except.ok o ∧ o.Perm (keysOf D)
      ∧ ∀ p ∈ D, ∀ d ∈ p.2, o.indexOf d < o.indexOf p.1 := by
  intro D hK hdeps hacy
  obtain ⟨o, ho⟩ := topo_sort_complete D hK hdeps hacy
  obtain ⟨hperm, hord⟩ := topo_sort_sound D hK ho
  exact ⟨o, ho, hperm, hord⟩

/-- C6 witness: the theorem applied to the concrete graph c6Graph with
a tie between a and c; the FIFO order b, a, c is returned. -/
theorem c6_witness :
    (keysOf c6Graph).Nodup ∧ Acyclic c6Graph
    ∧ ∃ o, topo_sort c6Graph = Except.ok o ∧ o.Perm (keysOf c6Graph)
        ∧ ∀ p ∈ c6Graph, ∀ d ∈ p.2, o.indexOf d < o.indexOf p.1 :=
  ⟨by decide, ⟨["b", "a", "c"], by decide, by decide⟩,
   c6_topo_sort_correct c6Graph (by decide) (by decide)
     ⟨["b", "a", "c"], by decide, by decide⟩⟩

/-- C5 amended: whenever the dependency graph admits no topological
order (in particular on every cycle), the engine fails before writing
anything, but with the generic fixed message rather than a CycleError
carrying the cycle members. -/
theorem c5_cycle_generic_error :
    ∀ (pkg : String) (modules : List (String × List Stmt)),
    (moduleNames modules).Nodup →
    ¬ Acyclic (buildDeps pkg modules) →
    mainRun pkg modules
      = Except.error "Cycle detected in dependency graph" := by
  intro pkg modules hnd hacy
  have hkeys : keysOf (buildDeps pkg modules) = moduleNames modules := by
    simp [keysOf, buildDeps, moduleNames, List.map_map]
  cases htopo : topo_sort (buildDeps pkg modules) with
  | ok o =>
    exfalso
    apply hacy
    have hK : (keysOf (buildDeps pkg modules)).Nodup := by
      rw [hkeys]
      exact hnd
    obtain ⟨hperm, hord⟩ := topo_sort_sound _ hK htopo
    exact ⟨o, hperm, hord⟩
  | error e =>
    have he := topo_sort_error_msg htopo
    subst he
    unfold mainRun
    rw [htopo]

theorem notAcyclic_xy : ¬ Acyclic [("x", ["y"]), ("y", ["x"])] := by
  rintro ⟨T, hperm, hord⟩
  have h1 := hord ("x", ["y"]) (by simp) "y" (by simp)
  have h2 := hord ("y", ["x"]) (by simp) "x" (by simp)
  simp only at h1 h2
  omega

/-- C5 witness: the amended theorem applied at the concrete x/y cycle. -/
theorem c5_witness :
    ¬ Acyclic (buildDeps "pkg" c5ModsXY)
    ∧ mainRun "pkg" c5ModsXY
        = Except.error "Cycle detected in dependency graph" := by
  have hb : buildDeps "pkg" c5ModsXY = [("x", ["y"]), ("y", ["x"])] := rfl
  have hna : ¬ Acyclic (buildDeps "pkg" c5ModsXY) := by
    rw [hb]
    exact notAcyclic_xy
  exact ⟨hna, c5_cycle_generic_error "pkg" c5ModsXY (by decide) hna⟩
